import Mathlib

/-!
# Verification of the ali-bot tabular earnings pipeline

Shallow embedding of the Python sources (`universal_processor.py`,
`excel_processor.py`, `config_manager.py`, `categories/base.py`,
`categories/dispatcher.py`).

Modeling conventions:
* a spreadsheet cell is `Option String`: `none` models a pandas NaN /
  missing value, `some s` the cell content in its `str(...)` form
  (numeric cells are taken in their Python string representation);
* Python floats are modeled by exact rationals (`Rat`); IEEE special
  values (`inf`, `nan`) are outside this model;
* Python dicts keyed by strings are modeled by association lists in
  insertion order (`dict[k] = v` keeps the position of an existing key,
  appends a fresh one), matching CPython semantics;
* character classes (`\d`, `\s`, `str.lower`) are modeled over ASCII,
  which covers every value exercised here.
-/

namespace AliBot

attribute [local semireducible] Rat.mul Rat.add Rat.sub Rat.inv

/-- A spreadsheet cell: `none` models pandas NaN / a missing value. -/
abbrev Cell := Option String

/-- Python regex `\s` / `str.strip` whitespace, ASCII range. -/
def isSpaceCh (c : Char) : Bool :=
  c = ' ' || c = '\t' || c = '\n' || c = '\r' || c = '\x0b' || c = '\x0c'

/-- Python `str.strip()` (ASCII whitespace). -/
def trimStr (s : String) : String :=
  ⟨((s.data.dropWhile isSpaceCh).reverse.dropWhile isSpaceCh).reverse⟩

/-- Python `str.lower()` (ASCII letters, which covers all data here). -/
def lowerStr (s : String) : String :=
  ⟨s.data.map Char.toLower⟩

/-- Numeric value of a digit run, most significant digit first. -/
def digitsVal (ds : List Char) : Nat :=
  ds.foldl (fun n c => 10 * n + (c.toNat - '0'.toNat)) 0

/-- Exponent digit run of a Python float literal (marker and sign already
consumed): the whole remainder must be one nonempty digit run. -/
def pyExpDigits (neg : Bool) (cs : List Char) : Option Rat :=
  let ds := cs.takeWhile Char.isDigit
  let rest := cs.dropWhile Char.isDigit
  if ds.isEmpty || !rest.isEmpty then none
  else some (if neg then 1 / (10 : Rat) ^ digitsVal ds else (10 : Rat) ^ digitsVal ds)

/-- Optionally signed exponent digits of a Python float literal. -/
def pyExpSigned (cs : List Char) : Option Rat :=
  match cs with
  | '+' :: r => pyExpDigits false r
  | '-' :: r => pyExpDigits true r
  | r => pyExpDigits false r

/-- Optional exponent part of a Python float literal: empty (factor 1) or
`e`/`E` followed by signed digits. -/
def pyExpOpt : List Char → Option Rat
  | [] => some 1
  | 'e' :: r => pyExpSigned r
  | 'E' :: r => pyExpSigned r
  | _ => none

/-- Mantissa (sign already consumed) of a Python `float(...)` string:
`digits [. digits] [exp]` or `. digits [exp]`.  IEEE specials (`inf`,
`nan`) and digit-group underscores are outside the rational model. -/
def pyFloatCore (cs : List Char) : Option Rat :=
  let intPart := cs.takeWhile Char.isDigit
  let rest := cs.dropWhile Char.isDigit
  match rest with
  | '.' :: rest2 =>
    let fracPart := rest2.takeWhile Char.isDigit
    let rest3 := rest2.dropWhile Char.isDigit
    if intPart.isEmpty && fracPart.isEmpty then none
    else
      (pyExpOpt rest3).map (fun e =>
        ((digitsVal intPart : Rat) + (digitsVal fracPart : Rat) / (10 : Rat) ^ fracPart.length) * e)
  | _ =>
    if intPart.isEmpty then none
    else (pyExpOpt rest).map (fun e => (digitsVal intPart : Rat) * e)

/-- Python `float(s)` on a string: strip surrounding whitespace, optional
sign, then mantissa with optional exponent; a parse failure (a raised
`ValueError`) is `none`. -/
def pyFloatOfString (s : String) : Option Rat :=
  let cs := ((s.data.dropWhile isSpaceCh).reverse.dropWhile isSpaceCh).reverse
  match cs with
  | '+' :: r => pyFloatCore r
  | '-' :: r => (pyFloatCore r).map (fun q => -q)
  | r => pyFloatCore r

/-- The characters `clean_amount` keeps: Python
`re.sub(r'[^\d.-]', '', s)` keeps digits, `.` and `-`. -/
def keepCh (c : Char) : Bool := c.isDigit || c = '.' || c = '-'

/-- `UniversalExcelProcessor.clean_amount` (the identical local helper in
`excel_processor.py`): `None` on NaN; otherwise stringify, drop every
character that is not a digit, `.` or `-`, and convert with `float`;
an empty remainder or a parse failure yields `None`, never an exception. -/
def clean_amount (cell : Cell) : Option Rat :=
  match cell with
  | none => none
  | some s =>
    let cleaned : String := ⟨s.data.filter keepCh⟩
    if cleaned = "" then none else pyFloatOfString cleaned

/-- `str(row[broker_column]).strip() if pd.notna(row[broker_column]) else ''`. -/
def brokerText : Cell → String
  | none => ""
  | some s => trimStr s

/-- One attempted match of `week\s*(\d+)` at the head of the (already
lowercased) character list, returning the digit group verbatim. -/
def matchWeekAt : List Char → Option String
  | 'w' :: 'e' :: 'e' :: 'k' :: rest =>
    let afterSp := rest.dropWhile isSpaceCh
    let ds := afterSp.takeWhile Char.isDigit
    if ds.isEmpty then none else some ⟨ds⟩
  | _ => none

/-- `re.search(r'week\s*(\d+)', s)`: leftmost match wins; `\s*` is greedy
but no backtrack can help (`\d` and `\s` are disjoint), so the direct
greedy scan is exact. -/
def searchWeek : List Char → Option String
  | [] => none
  | c :: rest => (matchWeekAt (c :: rest)).orElse (fun _ => searchWeek rest)

/-- The week marker extracted from one cell of the broker column. -/
def weekSearch (cell : Cell) : Option String :=
  searchWeek (lowerStr (brokerText cell)).data

/-- The row loop of `detect_week_markers`: carry the current label, switch
to `"Week {digits}"` on a marker row, and give the marker row itself the
updated label. -/
def detectAux (cur : String) : List Cell → List String
  | [] => []
  | c :: rest =>
    match weekSearch c with
    | some d => ("Week " ++ d) :: detectAux ("Week " ++ d) rest
    | none => cur :: detectAux cur rest

/-- `UniversalExcelProcessor.detect_week_markers`: one label per row of the
broker column, starting from `"Before Week 1"`. -/
def detect_week_markers (cells : List Cell) : List String :=
  detectAux "Before Week 1" cells

lemma detectAux_length (cur : String) (cells : List Cell) :
    (detectAux cur cells).length = cells.length := by
  induction cells generalizing cur with
  | nil => rfl
  | cons c rest ih =>
    cases h : weekSearch c <;> simp [detectAux, h, ih]

lemma detectAux_all_none (cur : String) (cells : List Cell)
    (h : ∀ c ∈ cells, weekSearch c = none) :
    detectAux cur cells = cells.map (fun _ => cur) := by
  induction cells generalizing cur with
  | nil => rfl
  | cons c rest ih =>
    have hc : weekSearch c = none := h c (List.mem_cons_self c rest)
    simp [detectAux, hc, ih cur (fun x hx => h x (List.mem_cons_of_mem c hx))]

lemma detectAux_append_marker (cur : String) (cells : List Cell) (c : Cell)
    (d : String) (hc : weekSearch c = some d) :
    detectAux cur (cells ++ [c]) = detectAux cur cells ++ ["Week " ++ d] := by
  induction cells generalizing cur with
  | nil => simp [detectAux, hc]
  | cons x rest ih =>
    cases hx : weekSearch x <;> simp [detectAux, hx, ih]

lemma detectAux_append_plain (cur : String) (cells : List Cell) (c : Cell)
    (hc : weekSearch c = none) :
    detectAux cur (cells ++ [c]) =
      detectAux cur cells ++ [(detectAux cur cells).getLastD cur] := by
  induction cells generalizing cur with
  | nil => simp [detectAux, hc]
  | cons x rest ih =>
    rw [List.cons_append]
    cases hx : weekSearch x with
    | some d =>
      rw [show detectAux cur (x :: (rest ++ [c]))
            = ("Week " ++ d) :: detectAux ("Week " ++ d) (rest ++ [c]) by
          simp [detectAux, hx],
        show detectAux cur (x :: rest)
            = ("Week " ++ d) :: detectAux ("Week " ++ d) rest by
          simp [detectAux, hx],
        ih, List.getLastD_cons, List.cons_append]
    | none =>
      rw [show detectAux cur (x :: (rest ++ [c]))
            = cur :: detectAux cur (rest ++ [c]) by simp [detectAux, hx],
        show detectAux cur (x :: rest) = cur :: detectAux cur rest by
          simp [detectAux, hx],
        ih, List.getLastD_cons, List.cons_append]

lemma detectAux_append_single (cur : String) (cells : List Cell) (c : Cell) :
    detectAux cur (cells ++ [c]) =
      detectAux cur cells ++
        [match weekSearch c with
         | some d => "Week " ++ d
         | none => (detectAux cur cells).getLastD cur] := by
  cases hc : weekSearch c with
  | some d => rw [detectAux_append_marker cur cells c d hc]
  | none => rw [detectAux_append_plain cur cells c hc]

/-- A raw row restricted to the selected columns (`df[cols_to_keep]`):
the entity cell and the cells of the amount columns, in column order. -/
structure RawRow where
  entity : Cell
  amounts : List Cell
deriving DecidableEq

/-- A row after `clean_amount` has been applied to every amount column. -/
structure MidRow where
  entity : Cell
  amounts : List (Option Rat)
deriving DecidableEq

/-- A row at the end of `clean_dataframe`: normalized entity name and
cleaned amount columns. -/
structure CleanRow where
  entity : String
  amounts : List (Option Rat)
deriving DecidableEq

/-- `astype(str).str.strip()` on the entity column: pandas renders a NaN
cell as the string `'nan'`. -/
def entityStr : Cell → String
  | none => "nan"
  | some s => trimStr s

/-- One cell of `df_clean[col] > 0`: a NaN value compares `False`. -/
def cellPos (a : Option Rat) : Bool :=
  match a with
  | some q => decide (0 < q)
  | none => false

/-- `UniversalExcelProcessor.clean_dataframe`, on rows already restricted
to `[entity_column] + amount_columns` (`n` = number of amount columns)
and tagged with an arbitrary payload (the derived week label, which
`process_category` re-attaches by row index, so it rides along).  The
stages mirror the source line by line: drop rows whose amount cells are
all NaN (`dropna how='all'`), apply `clean_amount` per amount column,
drop rows where every cleaned amount is NaN, then per amount column in
order keep only rows whose value is `> 0`, normalize entity names, and
drop `'nan'` / empty entities. -/
def clean_dataframe (n : Nat) (rows : List (RawRow × String)) :
    List (CleanRow × String) :=
  let s1 := rows.filter (fun p => !(p.1.amounts.all Option.isNone))
  let s2 : List (MidRow × String) :=
    s1.map (fun p => (⟨p.1.entity, p.1.amounts.map clean_amount⟩, p.2))
  let s3 := s2.filter (fun p => !(p.1.amounts.all Option.isNone))
  let s4 := (List.range n).foldl
    (fun rs i => rs.filter (fun p => cellPos (p.1.amounts.getD i none))) s3
  let s5 : List (CleanRow × String) :=
    s4.map (fun p => (⟨entityStr p.1.entity, p.1.amounts⟩, p.2))
  let s6 := s5.filter (fun p => !(p.1.entity == "nan"))
  s6.filter (fun p => !(p.1.entity == ""))

lemma mem_foldl_filter {α ι : Type} (p : ι → α → Bool) :
    ∀ (l : List ι) (rs : List α) (x : α),
      x ∈ l.foldl (fun rs i => rs.filter (p i)) rs →
      x ∈ rs ∧ ∀ i ∈ l, p i x = true := by
  intro l
  induction l with
  | nil => exact fun rs x h => ⟨h, by simp⟩
  | cons i t ih =>
    intro rs x h
    obtain ⟨hmem, hall⟩ := ih (rs.filter (p i)) x h
    rw [List.mem_filter] at hmem
    refine ⟨hmem.1, ?_⟩
    intro j hj
    rcases List.mem_cons.mp hj with rfl | hj
    · exact hmem.2
    · exact hall j hj

/-- `CalculationMethod` from `categories/base.py`. -/
inductive CalculationMethod
  | percentage
  | flat_rate
  | sum_only
  | custom
deriving DecidableEq

/-- A category's per-entity configuration as seen by the processor: dict
insertion order is kept, and each entry carries the optional `'value'`
field of its settings dict (`.get('value', 0)` supplies 0 when absent). -/
abbrev EntityConfig := List (String × Option Rat)

/-- An earnings record as returned by `_calculate_earnings`; the
`'percentage'` / `'flat_rate'` keys are both modeled by `rate` (the
`CUSTOM` branch stores no rate key, modeled as 0). -/
structure EarningsResult where
  entity_name : String
  total_amount : Rat
  rate : Rat
  earnings : Rat
deriving DecidableEq

/-- The case-insensitive config lookup loop of `_calculate_earnings`:
`entity.lower() == config_entity.lower()`, first match in dict insertion
order wins. -/
def cfgLookup (entity : String) (config : EntityConfig) :
    Option (String × Option Rat) :=
  config.find? (fun p => lowerStr entity == lowerStr p.1)

/-- `UniversalExcelProcessor._calculate_earnings`. -/
def calculate_earnings (entity : String) (total_amount : Rat)
    (method : CalculationMethod) (config : EntityConfig) : EarningsResult :=
  let matched := cfgLookup entity config
  let matchedName := match matched with | some p => p.1 | none => entity
  match method with
  | .sum_only => ⟨matchedName, total_amount, 0, total_amount⟩
  | .percentage =>
    let percentage := match matched with | some p => p.2.getD 0 | none => 0
    ⟨matchedName, total_amount, percentage, total_amount * percentage / 100⟩
  | .flat_rate =>
    let fr := match matched with | some p => p.2.getD 0 | none => 0
    ⟨matchedName, total_amount, fr, fr⟩
  | .custom => ⟨matchedName, total_amount, 0, 0⟩

/-- The name under which `_calculate_earnings` files an entity's result:
the matching config key's spelling, else the raw data name. -/
def matchedName (config : EntityConfig) (entity : String) : String :=
  match cfgLookup entity config with
  | some p => p.1
  | none => entity

/-- A cleaned row as consumed by `_process_with_grouping`: the derived
week label, the normalized entity name, and the value of the primary
(first) amount column. -/
structure CRow where
  week : String
  entity : String
  amount : Rat
deriving DecidableEq

/-- Sum of a group's amount column (pandas `.sum()`), exact arithmetic. -/
def sumAmt : List Rat → Rat
  | [] => 0
  | x :: t => x + sumAmt t

/-- Insertion step of the sort used to model pandas `groupby`'s default
ascending key sort. -/
def insertLeB {α : Type} (le : α → α → Bool) (a : α) : List α → List α
  | [] => [a]
  | b :: bs => if le a b then a :: b :: bs else b :: insertLeB le a bs

/-- Insertion sort with a Bool comparator. -/
def sortLeB {α : Type} (le : α → α → Bool) (l : List α) : List α :=
  l.foldr (insertLeB le) []

/-- Python string `<`: code-point lexicographic order on the characters. -/
def charsLtB : List Char → List Char → Bool
  | [], [] => false
  | [], _ :: _ => true
  | _ :: _, [] => false
  | a :: xs, b :: ys =>
    if a < b then true else if b < a then false else charsLtB xs ys

/-- `≤` on Python strings, as used for sorted group keys. -/
def strLeB (a b : String) : Bool := !(charsLtB b.data a.data)

/-- Lexicographic `≤` on `(week, entity)` group keys. -/
def pairLeB (x y : String × String) : Bool :=
  if charsLtB x.1.data y.1.data then true
  else if charsLtB y.1.data x.1.data then false
  else strLeB x.2 y.2

/-- First-occurrence deduplication (the order `pandas.unique` keeps). -/
def uniqueFirst {α : Type} [DecidableEq α] : List α → List α
  | [] => []
  | a :: t => a :: (uniqueFirst t).filter (fun x => decide (x ≠ a))

/-- The summed amount of one `(week, entity)` group. -/
def sumWE (rows : List CRow) (w e : String) : Rat :=
  sumAmt ((rows.filter (fun r => r.week == w && r.entity == e)).map CRow.amount)

/-- The summed amount of one entity group (all weeks). -/
def sumE (rows : List CRow) (e : String) : Rat :=
  sumAmt ((rows.filter (fun r => r.entity == e)).map CRow.amount)

/-- `df.groupby([week_col, entity_col])[amount_col].sum()`: one row per
distinct `(week, entity)` key, keys sorted ascending (pandas default). -/
def groupWE (rows : List CRow) : List ((String × String) × Rat) :=
  (sortLeB pairLeB (uniqueFirst (rows.map (fun r => (r.week, r.entity))))).map
    (fun k => (k, sumWE rows k.1 k.2))

/-- `df.groupby(entity_col)[amount_col].sum()`, sorted keys. -/
def groupE (rows : List CRow) : List (String × Rat) :=
  (sortLeB strLeB (uniqueFirst (rows.map CRow.entity))).map
    (fun e => (e, sumE rows e))

/-- The per-entity record stored in a results dict.  The stored Python
dict also repeats the entity name for calculated entries (it always
equals the key) and omits it for reconciliation entries; that redundant
field is dropped here. -/
structure Agg where
  total_amount : Rat
  rate : Rat
  earnings : Rat
deriving DecidableEq

def toAgg (r : EarningsResult) : Agg := ⟨r.total_amount, r.rate, r.earnings⟩

/-- Python `dict[k] = v`: overwrite in place (key keeps its position),
else append. -/
def setKey {α : Type} (m : List (String × α)) (k : String) (v : α) :
    List (String × α) :=
  if m.any (fun p => p.1 == k) then
    m.map (fun p => if p.1 == k then (k, v) else p)
  else m ++ [(k, v)]

/-- Python `dict.get(k)` / `k in dict` on a results dict. -/
def lookupA {α : Type} (m : List (String × α)) (k : String) : Option α :=
  (m.find? (fun p => p.1 == k)).map (fun p => p.2)

/-- The `results[...] = earnings_data` loop over one scope's aggregate
rows (keyed by `earnings_data['entity_name']`, a later duplicate key
overwrites an earlier one). -/
def buildMap (gs : List (String × Rat)) (method : CalculationMethod)
    (config : EntityConfig) : List (String × Agg) :=
  gs.foldl (fun m g =>
    let r := calculate_earnings g.1 g.2 method config
    setKey m r.entity_name (toAgg r)) []

/-- The "add entities from config that weren't in this scope" loop:
each configured entity whose exact key is absent gets
`{'total_amount': 0, 'percentage': cfg.get('value', 0), 'earnings': 0}`. -/
def reconcile (m : List (String × Agg)) (config : EntityConfig) :
    List (String × Agg) :=
  config.foldl (fun acc p =>
    if acc.any (fun q => q.1 == p.1) then acc
    else acc ++ [(p.1, ⟨0, p.2.getD 0, 0⟩)]) m

/-- The `{'weeks': ..., 'overall': ...}` result structure of the grouped
path. -/
structure GroupResults where
  weeks : List (String × List (String × Agg))
  overall : List (String × Agg)
deriving DecidableEq

/-- `weekly_data[weekly_data[week_col] == week]`, with the entity and
summed amount extracted per aggregate row. -/
def weekGroups (rows : List CRow) (w : String) : List (String × Rat) :=
  ((groupWE rows).filter (fun p => p.1.1 == w)).map (fun p => (p.1.2, p.2))

/-- `weeks = weekly_data[week_col].unique()`. -/
def weeksOf (rows : List CRow) : List String :=
  uniqueFirst ((groupWE rows).map (fun p => p.1.1))

/-- `UniversalExcelProcessor._process_with_grouping` on cleaned rows; the
grouping column is the derived week label.  A `None` config is modeled
by the empty list (both skip reconciliation). -/
def process_with_grouping (rows : List CRow) (method : CalculationMethod)
    (config : EntityConfig) : GroupResults :=
  { weeks := (weeksOf rows).map (fun w =>
      (w, reconcile (buildMap (weekGroups rows w) method config) config))
    overall := reconcile (buildMap (groupE rows) method config) config }

/-- `UniversalExcelProcessor._process_without_grouping`. -/
def process_without_grouping (rows : List CRow) (method : CalculationMethod)
    (config : EntityConfig) : List (String × Agg) :=
  reconcile (buildMap (groupE rows) method config) config

/-- A pandas DataFrame: named columns and rows of cells, each row aligned
with the column list by position. -/
structure Table where
  cols : List String
  rows : List (List Cell)
deriving DecidableEq

/-- `row[c]`: the cell under column `c` (`none` when the column is
absent; the callers below guard the absent case). -/
def cellAt (cols : List String) (row : List Cell) (c : String) : Cell :=
  match cols.findIdx? (fun x => x == c) with
  | some i => row.getD i none
  | none => none

/-- Python `pat in s` substring test, on character lists. -/
def containsSubCh (pat : List Char) : List Char → Bool
  | [] => pat.isEmpty
  | c :: t => pat.isPrefixOf (c :: t) || containsSubCh pat t

/-- The broker-column scan of `process_category`
(`if 'broker' in col.lower()`), first hit wins. -/
def findBrokerCol (cols : List String) : Option String :=
  cols.find? (fun c => containsSubCh "broker".data (lowerStr c).data)

/-- The fields of `AnalysisCategory` that `process_category` reads. -/
structure Category where
  entity_column : String
  amount_columns : List String
  grouping_columns : List String
  calculation_method : CalculationMethod
deriving DecidableEq

/-- The projection `df[[entity_column] + amount_columns]` of one row. -/
def selectRow (cols : List String) (cat : Category) (row : List Cell) : RawRow :=
  ⟨cellAt cols row cat.entity_column,
   cat.amount_columns.map (fun c => cellAt cols row c)⟩

/-- The result payload of `process_category`: the grouped
`{'weeks': ..., 'overall': ...}` shape or the ungrouped `{'overall': ...}`. -/
inductive ProcResults
  | grouped (g : GroupResults)
  | simple (overall : List (String × Agg))
deriving DecidableEq

/-- `UniversalExcelProcessor.process_category`.  The first component is
the returned results; `none` models an uncaught pandas exception (a
selected column that does not exist, empty `amount_columns`, or the
unmodeled corner of grouping with no broker column, where the code would
`groupby` a missing `'Week'` column unless the table already carried a
literal `'Week'` column).  The second component is the caller's
DataFrame object after the call: `df.columns = df.columns.str.strip()`
mutates it in place; the `df = df.copy()` on the grouped path and the
copies taken inside `clean_dataframe` detach every later write, so the
derived `'Week'` column is computed on the full pre-filter table (week
labels are re-attached to surviving rows by index) and never reaches the
caller's object. -/
def process_category (t : Table) (cat : Category) (config : EntityConfig) :
    Option ProcResults × Table :=
  let cols := t.cols.map trimStr
  let callerTable : Table := ⟨cols, t.rows⟩
  let result : Option ProcResults :=
    if cat.entity_column ∈ cols ∧ (∀ a ∈ cat.amount_columns, a ∈ cols)
        ∧ cat.amount_columns ≠ [] then
      if cat.grouping_columns ≠ [] then
        match findBrokerCol cols with
        | some b =>
          let weeks := detect_week_markers
            (t.rows.map (fun row => cellAt cols row b))
          let cleaned := clean_dataframe cat.amount_columns.length
            ((t.rows.map (selectRow cols cat)).zip weeks)
          some (.grouped (process_with_grouping
            (cleaned.map (fun p =>
              ⟨p.2, p.1.entity, (p.1.amounts.getD 0 none).getD 0⟩))
            cat.calculation_method config))
        | none => none
      else
        let cleaned := clean_dataframe cat.amount_columns.length
          ((t.rows.map (selectRow cols cat)).map (fun r => (r, "")))
        some (.simple (process_without_grouping
          (cleaned.map (fun p =>
            ⟨"", p.1.entity, (p.1.amounts.getD 0 none).getD 0⟩))
          cat.calculation_method config))
    else none
  (result, callerTable)

/-- A Python float as produced by `float(...)`: a finite value (exact
rational model), NaN, or a signed infinity.  NaN is reachable in the
program: `parse_config_from_text` stores `float('nan')` for the user
line `"Ali: nan"`, and `json.load` accepts `NaN` in a persisted store. -/
inductive PyFloat
  | num (q : Rat)
  | nan
  | inf (neg : Bool)
deriving DecidableEq

/-- Python/IEEE float `<`: every comparison with NaN is False; the
infinities compare as usual. -/
def pfLt : PyFloat → PyFloat → Bool
  | .num a, .num b => decide (a < b)
  | .nan, _ => false
  | _, .nan => false
  | .inf n, .num _ => n
  | .num _, .inf n => !n
  | .inf n1, .inf n2 => n1 && !n2

/-- A value inside a config settings dict: a finite number, the
`float('nan')` / `float('±inf')` objects, a string, or some other
Python value (one that `float()` rejects with a `TypeError`). -/
inductive CfgVal
  | num (q : Rat)
  | nanNum
  | infNum (neg : Bool)
  | str (s : String)
  | other
deriving DecidableEq

/-- One entity's settings: a dict (field list in insertion order) or a
non-dict value (`isinstance(settings, dict)` fails). -/
inductive SettingVal
  | dict (fields : List (String × CfgVal))
  | nondict
deriving DecidableEq

/-- `settings[key]` lookup / `key in settings` presence test. -/
def fieldGet (fields : List (String × CfgVal)) (k : String) : Option CfgVal :=
  (fields.find? (fun p => p.1 == k)).map (fun p => p.2)

/-- PEP 515 underscore stripping for a Python numeric literal: every
`_` must sit strictly between two digits; `prev` is the character just
before the current position (initially a blank).  `none` marks a
misplaced underscore (a `ValueError`). -/
def stripUndersAux : Char → List Char → Option (List Char)
  | _, [] => some []
  | prev, '_' :: t =>
    match t with
    | [] => none
    | d :: _ =>
      if prev.isDigit && d.isDigit then stripUndersAux '_' t else none
  | _, c :: t => (stripUndersAux c t).map (fun r => c :: r)

def stripUnders (cs : List Char) : Option (List Char) :=
  stripUndersAux ' ' cs

/-- Python `float(s)` on a string, in full: strip whitespace, optional
sign, then the case-insensitive words `nan` / `inf` / `infinity`, or a
numeric literal with optional single underscores between digits. -/
def pyFloatStrF (s : String) : Option PyFloat :=
  let cs := ((s.data.dropWhile isSpaceCh).reverse.dropWhile isSpaceCh).reverse
  let signed : Bool × List Char :=
    match cs with
    | '+' :: r => (false, r)
    | '-' :: r => (true, r)
    | r => (false, r)
  let low := signed.2.map Char.toLower
  if low = "nan".data then some PyFloat.nan
  else if low = "inf".data || low = "infinity".data then
    some (PyFloat.inf signed.1)
  else
    match stripUnders signed.2 with
    | some plain =>
      (pyFloatCore plain).map
        (fun q => PyFloat.num (if signed.1 then -q else q))
    | none => none

/-- Python `float(v)` for a settings value: numbers (finite, NaN or
infinite) pass through, strings go through the full float grammar,
anything else raises (`none`). -/
def pyFloatVal : CfgVal → Option PyFloat
  | .num q => some (.num q)
  | .nanNum => some .nan
  | .infNum neg => some (.inf neg)
  | .str s => pyFloatStrF s
  | .other => none

/-- The per-entry body of `DispatcherAnalysis.validate_config`: the
settings must be a dict carrying `'type'` and `'value'`, the type must
equal `'percentage'`, `float(value)` must succeed, and the guard
`if value < 0 or value > 100: return False` must not fire — an IEEE
comparison that NaN slips through, since `nan < 0` and `nan > 100` are
both False. -/
def entryOkB (sv : SettingVal) : Bool :=
  match sv with
  | .nondict => false
  | .dict fields =>
    match fieldGet fields "type", fieldGet fields "value" with
    | some t, some v =>
      (t == .str "percentage") &&
        (match pyFloatVal v with
         | some f => !(pfLt f (PyFloat.num 0) || pfLt (PyFloat.num 100) f)
         | none => false)
    | _, _ => false

/-- `DispatcherAnalysis.validate_config`: an empty config is invalid; the
entry loop returns `False` on the first bad entry. -/
def validate_config (config : List (String × SettingVal)) : Bool :=
  if config.isEmpty then false
  else config.all (fun p => entryOkB p.2)

/-- The `ConfigManager` store (`self.config`): category id → category
config, in insertion order.  `save_config` serializes it to disk; the
file itself is outside the model. -/
abbrev Store := List (String × List (String × SettingVal))

/-- `ConfigManager.set_category_config`: dict assignment plus save. -/
def set_category_config (store : Store) (categoryId : String)
    (config : List (String × SettingVal)) : Store :=
  setKey store categoryId config

/-- `ConfigManager.validate_and_save` with the dispatcher category's
validator: validate the submission as a unit, persist only on success. -/
def validate_and_save (store : Store) (categoryId : String)
    (config : List (String × SettingVal)) : Bool × Store :=
  if validate_config config then
    (true, set_category_config store categoryId config)
  else (false, store)

/-! ### Association-list and permutation toolkit -/

lemma lookupA_cons {α : Type} (p : String × α) (t : List (String × α))
    (k : String) :
    lookupA (p :: t) k = if p.1 = k then some p.2 else lookupA t k := by
  by_cases h : p.1 = k
  · simp [lookupA, List.find?_cons_of_pos, h]
  · rw [if_neg h]
    unfold lookupA
    rw [List.find?_cons_of_neg _ (by simp [h])]

lemma lookupA_append {α : Type} (m m' : List (String × α)) (k : String) :
    lookupA (m ++ m') k =
      match lookupA m k with
      | some v => some v
      | none => lookupA m' k := by
  induction m with
  | nil => simp [lookupA]
  | cons p t ih =>
    rw [List.cons_append, lookupA_cons, lookupA_cons]
    by_cases h : p.1 = k <;> simp [h, ih]

lemma lookupA_eq_none_iff {α : Type} (m : List (String × α)) (k : String) :
    lookupA m k = none ↔ ∀ p ∈ m, p.1 ≠ k := by
  induction m with
  | nil => simp [lookupA]
  | cons p t ih =>
    rw [lookupA_cons]
    by_cases h : p.1 = k <;> simp [h, ih]

lemma lookupA_map_upd_eq {α : Type} (m : List (String × α)) (k₀ : String)
    (v : α) (hany : m.any (fun p => p.1 == k₀) = true) :
    lookupA (m.map (fun p => if p.1 == k₀ then (k₀, v) else p)) k₀ = some v := by
  induction m with
  | nil => simp at hany
  | cons p t ih =>
    rw [List.map_cons]
    by_cases h : p.1 = k₀
    · rw [if_pos (by simp [h]), lookupA_cons]
      simp
    · rw [if_neg (by simp [h]), lookupA_cons, if_neg h]
      refine ih ?_
      rw [List.any_cons] at hany
      simpa [h] using hany

lemma lookupA_map_upd_ne {α : Type} (m : List (String × α)) (k₀ k : String)
    (v : α) (hne : k₀ ≠ k) :
    lookupA (m.map (fun p => if p.1 == k₀ then (k₀, v) else p)) k =
      lookupA m k := by
  induction m with
  | nil => rfl
  | cons p t ih =>
    rw [List.map_cons]
    by_cases h : p.1 = k₀
    · rw [if_pos (by simp [h]), lookupA_cons, lookupA_cons, if_neg hne,
        if_neg (h ▸ hne), ih]
    · rw [if_neg (by simp [h]), lookupA_cons, lookupA_cons, ih]

lemma lookupA_setKey {α : Type} (m : List (String × α)) (k₀ k : String)
    (v : α) :
    lookupA (setKey m k₀ v) k = if k₀ = k then some v else lookupA m k := by
  unfold setKey
  by_cases hany : m.any (fun p => p.1 == k₀) = true
  · rw [if_pos hany]
    by_cases hk : k₀ = k
    · subst hk
      rw [if_pos rfl, lookupA_map_upd_eq m k₀ v hany]
    · rw [if_neg hk, lookupA_map_upd_ne m k₀ k v hk]
  · rw [if_neg hany, lookupA_append]
    have hnone : lookupA m k₀ = none := by
      rw [lookupA_eq_none_iff]
      intro p hp hpk
      exact hany (List.any_eq_true.mpr ⟨p, hp, by simp [hpk]⟩)
    by_cases hk : k₀ = k
    · subst hk
      simp [hnone, lookupA_cons]
    · cases h : lookupA m k with
      | some w => simp [h, hk]
      | none => simp [h, hk, lookupA_cons, lookupA]

lemma find?_eq_of_unique {α : Type} (p : α → Bool) (l : List α) (x : α)
    (hx : x ∈ l) (hpx : p x = true)
    (huniq : ∀ y ∈ l, p y = true → y = x) :
    l.find? p = some x := by
  induction l with
  | nil => cases hx
  | cons a t ih =>
    by_cases ha : p a = true
    · rw [List.find?_cons_of_pos _ ha, huniq a (List.mem_cons_self a t) ha]
    · rw [List.find?_cons_of_neg _ ha]
      rcases List.mem_cons.mp hx with rfl | hxt
      · exact absurd hpx ha
      · exact ih hxt (fun y hy => huniq y (List.mem_cons_of_mem a hy))

lemma lookupA_fold_setKey {α β : Type} (key : β → String) (val : β → α) :
    ∀ (gs : List β) (init : List (String × α)) (k : String),
      lookupA (gs.foldl (fun m g => setKey m (key g) (val g)) init) k =
        match gs.reverse.find? (fun g => key g == k) with
        | some g => some (val g)
        | none => lookupA init k := by
  intro gs
  induction gs with
  | nil => intro init k; rfl
  | cons g t ih =>
    intro init k
    rw [List.foldl_cons, ih, List.reverse_cons]
    cases hf : t.reverse.find? (fun g => key g == k) with
    | some g' =>
      rw [List.find?_append, hf]
      rfl
    | none =>
      rw [List.find?_append, hf]
      show _ = match [g].find? (fun g => key g == k) with
        | some g => some (val g)
        | none => lookupA init k
      rw [lookupA_setKey]
      by_cases h : key g = k
      · rw [if_pos h, List.find?_cons_of_pos _ (by simp [h])]
      · rw [if_neg h, List.find?_cons_of_neg _ (by simp [h])]
        rfl

lemma insertLeB_perm {α : Type} (le : α → α → Bool) (a : α) (l : List α) :
    List.Perm (insertLeB le a l) (a :: l) := by
  induction l with
  | nil => exact List.Perm.refl _
  | cons b bs ih =>
    unfold insertLeB
    by_cases h : le a b
    · rw [if_pos h]
    · rw [if_neg h]
      exact (ih.cons b).trans (List.Perm.swap a b bs)

lemma sortLeB_perm {α : Type} (le : α → α → Bool) (l : List α) :
    List.Perm (sortLeB le l) l := by
  induction l with
  | nil => exact List.Perm.refl _
  | cons a t ih =>
    exact (insertLeB_perm le a (sortLeB le t)).trans (ih.cons a)

lemma mem_sortLeB {α : Type} (le : α → α → Bool) (l : List α) (x : α) :
    x ∈ sortLeB le l ↔ x ∈ l :=
  (sortLeB_perm le l).mem_iff

lemma nodup_sortLeB {α : Type} (le : α → α → Bool) (l : List α)
    (h : l.Nodup) : (sortLeB le l).Nodup :=
  (sortLeB_perm le l).nodup_iff.mpr h

lemma mem_uniqueFirst {α : Type} [DecidableEq α] (l : List α) (x : α) :
    x ∈ uniqueFirst l ↔ x ∈ l := by
  induction l with
  | nil => simp [uniqueFirst]
  | cons a t ih =>
    unfold uniqueFirst
    rw [List.mem_cons, List.mem_cons]
    constructor
    · rintro (rfl | hx)
      · exact Or.inl rfl
      · exact Or.inr (ih.mp (List.mem_of_mem_filter hx))
    · rintro (rfl | hx)
      · exact Or.inl rfl
      · by_cases hxa : x = a
        · exact Or.inl hxa
        · exact Or.inr (List.mem_filter.mpr ⟨ih.mpr hx, by simp [hxa]⟩)

lemma nodup_uniqueFirst {α : Type} [DecidableEq α] (l : List α) :
    (uniqueFirst l).Nodup := by
  induction l with
  | nil => simp [uniqueFirst]
  | cons a t ih =>
    unfold uniqueFirst
    rw [List.nodup_cons]
    refine ⟨?_, ih.filter _⟩
    intro ha
    have := (List.mem_filter.mp ha).2
    simp at this

lemma sum_map_single (W : List String) (b : String) (c : Rat)
    (hnd : W.Nodup) (hb : b ∈ W) :
    (W.map (fun w => if b = w then c else 0)).sum = c := by
  induction W with
  | nil => cases hb
  | cons a t ih =>
    rw [List.map_cons, List.sum_cons]
    rcases List.mem_cons.mp hb with rfl | hbt
    · rw [if_pos rfl]
      have hz : (t.map (fun w => if b = w then c else (0 : Rat))).sum = 0 := by
        apply List.sum_eq_zero
        intro x hx
        obtain ⟨w, hw, rfl⟩ := List.mem_map.mp hx
        rw [if_neg]
        intro h
        exact (List.nodup_cons.mp hnd).1 (h ▸ hw)
      rw [hz, add_zero]
    · have hab : b ≠ a := by
        intro h
        exact (List.nodup_cons.mp hnd).1 (h ▸ hbt)
      rw [if_neg hab, zero_add]
      exact ih (List.nodup_cons.mp hnd).2 hbt

lemma sum_map_add (l : List String) (f g : String → Rat) :
    (l.map (fun x => f x + g x)).sum = (l.map f).sum + (l.map g).sum := by
  induction l with
  | nil => simp
  | cons a t ih =>
    simp only [List.map_cons, List.sum_cons, ih]
    ring

lemma sumWE_cons (r : CRow) (t : List CRow) (w e : String) :
    sumWE (r :: t) w e =
      (if r.week = w ∧ r.entity = e then r.amount else 0) + sumWE t w e := by
  unfold sumWE
  by_cases h : r.week = w ∧ r.entity = e
  · rw [List.filter_cons_of_pos (by simp [h.1, h.2]), if_pos h]
    rfl
  · rw [List.filter_cons_of_neg (by simpa using h), if_neg h, zero_add]

lemma sumE_cons (r : CRow) (t : List CRow) (e : String) :
    sumE (r :: t) e =
      (if r.entity = e then r.amount else 0) + sumE t e := by
  unfold sumE
  by_cases h : r.entity = e
  · rw [List.filter_cons_of_pos (by simp [h]), if_pos h]
    rfl
  · rw [List.filter_cons_of_neg (by simpa using h), if_neg h, zero_add]

lemma sumWE_eq_zero (rows : List CRow) (w e : String)
    (h : ∀ r ∈ rows, ¬(r.week = w ∧ r.entity = e)) :
    sumWE rows w e = 0 := by
  unfold sumWE
  rw [List.filter_eq_nil_iff.mpr (by intro r hr; simpa using h r hr)]
  rfl

/-- Partition of an entity's total over any duplicate-free list of week
labels covering the rows' weeks. -/
lemma sum_weeks_eq_sumE (rows : List CRow) (e : String) (W : List String)
    (hnd : W.Nodup) (hW : ∀ r ∈ rows, r.week ∈ W) :
    (W.map (fun w => sumWE rows w e)).sum = sumE rows e := by
  induction rows with
  | nil =>
    have hz : ∀ w, sumWE ([] : List CRow) w e = 0 := fun w => rfl
    simp only [hz]
    rw [List.sum_eq_zero (by intro x hx; exact (List.mem_map.mp hx).choose_spec.2.symm)]
    rfl
  | cons r t ih =>
    have h1 : W.map (fun w => sumWE (r :: t) w e) =
        W.map (fun w =>
          (if r.week = w ∧ r.entity = e then r.amount else 0) + sumWE t w e) := by
      exact List.map_congr_left (fun w _ => sumWE_cons r t w e)
    rw [h1, sum_map_add, sumE_cons,
      ih (fun x hx => hW x (List.mem_cons_of_mem r hx))]
    congr 1
    by_cases he : r.entity = e
    · have h2 : W.map (fun w =>
          if r.week = w ∧ r.entity = e then r.amount else 0) =
          W.map (fun w => if r.week = w then r.amount else 0) := by
        exact List.map_congr_left (fun w _ => by simp [he])
      rw [h2, if_pos he,
        sum_map_single W r.week r.amount hnd (hW r (List.mem_cons_self r t))]
    · have h2 : W.map (fun w =>
          if r.week = w ∧ r.entity = e then r.amount else 0) =
          W.map (fun _ => 0) := by
        exact List.map_congr_left (fun w _ => by simp [he])
      rw [h2, if_neg he]
      exact List.sum_eq_zero (by intro x hx; exact ((List.mem_map.mp hx).choose_spec.2).symm)

lemma groupE_mem_elim (rows : List CRow) (g : String × Rat)
    (hg : g ∈ groupE rows) :
    g = (g.1, sumE rows g.1) ∧ g.1 ∈ rows.map CRow.entity := by
  unfold groupE at hg
  obtain ⟨e, he, rfl⟩ := List.mem_map.mp hg
  exact ⟨rfl, (mem_uniqueFirst _ _).mp ((mem_sortLeB _ _ _).mp he)⟩

lemma groupE_mem_intro (rows : List CRow) (e : String)
    (he : e ∈ rows.map CRow.entity) :
    (e, sumE rows e) ∈ groupE rows :=
  List.mem_map.mpr
    ⟨e, (mem_sortLeB _ _ _).mpr ((mem_uniqueFirst _ _).mpr he), rfl⟩

lemma groupWE_mem_elim (rows : List CRow) (p : (String × String) × Rat)
    (hp : p ∈ groupWE rows) :
    p = (p.1, sumWE rows p.1.1 p.1.2) ∧
      p.1 ∈ rows.map (fun r => (r.week, r.entity)) := by
  unfold groupWE at hp
  obtain ⟨kk, hk, rfl⟩ := List.mem_map.mp hp
  exact ⟨rfl, (mem_uniqueFirst _ _).mp ((mem_sortLeB _ _ _).mp hk)⟩

lemma groupWE_mem_intro (rows : List CRow) (kk : String × String)
    (hk : kk ∈ rows.map (fun r => (r.week, r.entity))) :
    (kk, sumWE rows kk.1 kk.2) ∈ groupWE rows :=
  List.mem_map.mpr
    ⟨kk, (mem_sortLeB _ _ _).mpr ((mem_uniqueFirst _ _).mpr hk), rfl⟩

lemma weekGroups_mem_elim (rows : List CRow) (w : String) (g : String × Rat)
    (hg : g ∈ weekGroups rows w) :
    g = (g.1, sumWE rows w g.1) ∧
      (w, g.1) ∈ rows.map (fun r => (r.week, r.entity)) := by
  unfold weekGroups at hg
  obtain ⟨p, hp, rfl⟩ := List.mem_map.mp hg
  have hflt := List.mem_filter.mp hp
  obtain ⟨hpeq, hpk⟩ := groupWE_mem_elim rows p hflt.1
  have hw : p.1.1 = w := by simpa using hflt.2
  constructor
  · rw [show p = (p.1, sumWE rows p.1.1 p.1.2) from hpeq]
    rw [hw]
  · rw [← hw]
    simpa using hpk

lemma weekGroups_mem_intro (rows : List CRow) (w e : String)
    (hk : (w, e) ∈ rows.map (fun r => (r.week, r.entity))) :
    (e, sumWE rows w e) ∈ weekGroups rows w := by
  unfold weekGroups
  exact List.mem_map.mpr
    ⟨((w, e), sumWE rows w e),
     List.mem_filter.mpr ⟨groupWE_mem_intro rows (w, e) hk, by simp⟩, rfl⟩

lemma weeksOf_nodup (rows : List CRow) : (weeksOf rows).Nodup :=
  nodup_uniqueFirst _

lemma week_mem_weeksOf (rows : List CRow) (r : CRow) (hr : r ∈ rows) :
    r.week ∈ weeksOf rows := by
  apply (mem_uniqueFirst _ _).mpr
  apply List.mem_map.mpr
  exact ⟨((r.week, r.entity), sumWE rows r.week r.entity),
    groupWE_mem_intro rows (r.week, r.entity)
      (List.mem_map.mpr ⟨r, hr, rfl⟩), rfl⟩

lemma calc_entity_name (entity : String) (total : Rat)
    (method : CalculationMethod) (config : EntityConfig) :
    (calculate_earnings entity total method config).entity_name =
      matchedName config entity := by
  cases method <;> cases h : cfgLookup entity config <;>
    simp [calculate_earnings, matchedName, h]

lemma calc_total_amount (entity : String) (total : Rat)
    (method : CalculationMethod) (config : EntityConfig) :
    (calculate_earnings entity total method config).total_amount = total := by
  cases method <;> cases h : cfgLookup entity config <;>
    simp [calculate_earnings, h]

lemma lookupA_buildMap (gs : List (String × Rat))
    (method : CalculationMethod) (config : EntityConfig) (k : String) :
    lookupA (buildMap gs method config) k =
      match gs.reverse.find? (fun g => matchedName config g.1 == k) with
      | some g => some (toAgg (calculate_earnings g.1 g.2 method config))
      | none => none := by
  have hb : buildMap gs method config =
      gs.foldl (fun m g =>
        setKey m ((calculate_earnings g.1 g.2 method config).entity_name)
          (toAgg (calculate_earnings g.1 g.2 method config))) [] := rfl
  rw [hb,
    lookupA_fold_setKey
      (fun g => (calculate_earnings g.1 g.2 method config).entity_name)
      (fun g => toAgg (calculate_earnings g.1 g.2 method config)) gs [] k]
  simp only [calc_entity_name]
  cases hf : gs.reverse.find?
      (fun g => matchedName config g.1 == k) with
  | some g => rfl
  | none => rfl

lemma entryOkB_iff (sv : SettingVal) :
    entryOkB sv = true ↔
      ∃ fields, sv = SettingVal.dict fields ∧
        fieldGet fields "type" = some (.str "percentage") ∧
        ∃ v f, fieldGet fields "value" = some v ∧ pyFloatVal v = some f ∧
          pfLt f (PyFloat.num 0) = false ∧ pfLt (PyFloat.num 100) f = false := by
  cases sv with
  | nondict => simp [entryOkB]
  | dict fields =>
    simp only [entryOkB, SettingVal.dict.injEq, exists_eq_left']
    cases ht : fieldGet fields "type" with
    | none => simp [ht]
    | some t =>
      cases hv : fieldGet fields "value" with
      | none => simp [hv]
      | some v =>
        cases hq : pyFloatVal v with
        | none =>
          simp only [hq, Bool.and_eq_true, beq_iff_eq]
          simp [ht, hq]
        | some f =>
          simp only [hq, Bool.and_eq_true, beq_iff_eq,
            Bool.not_eq_true', Bool.or_eq_false_iff]
          simp only [ht, Option.some.injEq]
          constructor
          · rintro ⟨h1, h2, h3⟩
            exact ⟨h1, v, f, rfl, hq, h2, h3⟩
          · rintro ⟨h1, v', f', hv', hq', h2, h3⟩
            obtain rfl : v = v' := hv'
            rw [hq] at hq'
            obtain rfl : f = f' := Option.some.inj hq'
            exact ⟨h1, h2, h3⟩

lemma matchedName_ne_of_lower_ne (config : EntityConfig) (e k : String)
    (h : lowerStr e ≠ lowerStr k) : matchedName config e ≠ k := by
  intro hmk
  cases hc : cfgLookup e config with
  | none =>
    simp only [matchedName, hc] at hmk
    exact h (by rw [hmk])
  | some q =>
    simp only [matchedName, hc] at hmk
    have h2 : lowerStr e = lowerStr q.1 := by
      have := List.find?_some hc
      simpa using this
    exact h (by rw [h2, hmk])

lemma cfgLookup_eq_none (e : String) (config : EntityConfig)
    (h : ∀ q ∈ config, lowerStr q.1 ≠ lowerStr e) :
    cfgLookup e config = none := by
  rw [cfgLookup, List.find?_eq_none]
  intro q hq hbeq
  rw [beq_iff_eq] at hbeq
  exact h q hq hbeq.symm

lemma matchedName_eq_unconfigured (config : EntityConfig) (e y₁ : String)
    (hcfg : ∀ q ∈ config, lowerStr q.1 ≠ lowerStr e)
    (h : matchedName config y₁ = e) : y₁ = e := by
  cases hc : cfgLookup y₁ config with
  | none => simp only [matchedName, hc] at h; exact h
  | some q =>
    simp only [matchedName, hc] at h
    exact absurd (by rw [h]) (hcfg q (List.mem_of_find?_eq_some hc))

lemma calc_unmatched_percentage (e : String) (t : Rat) (config : EntityConfig)
    (h : cfgLookup e config = none) :
    calculate_earnings e t .percentage config = ⟨e, t, 0, 0⟩ := by
  simp [calculate_earnings, h]

lemma lookupA_reconcile (config : EntityConfig) :
    ∀ (m : List (String × Agg)) (k : String),
      lookupA (reconcile m config) k =
        match lookupA m k with
        | some v => some v
        | none => (config.find? (fun p => p.1 == k)).map
            (fun p => (⟨0, p.2.getD 0, 0⟩ : Agg)) := by
  induction config with
  | nil =>
    intro m k
    cases h : lookupA m k <;> simp [reconcile, h]
  | cons p t ih =>
    intro m k
    show lookupA ((p :: t).foldl _ m) k = _
    rw [List.foldl_cons]
    by_cases hin : m.any (fun q => q.1 == p.1) = true
    · rw [if_pos hin]
      have := ih m k
      rw [show (t.foldl (fun acc p =>
          if acc.any (fun q => q.1 == p.1) then acc
          else acc ++ [(p.1, (⟨0, p.2.getD 0, 0⟩ : Agg))]) m) = reconcile m t
        from rfl, this]
      cases h : lookupA m k with
      | some v => simp
      | none =>
        have hpk : p.1 ≠ k := by
          intro hpk
          obtain ⟨q, hq, hq2⟩ := List.any_eq_true.mp hin
          exact absurd h (by
            rw [lookupA_eq_none_iff]
            push_neg
            exact ⟨q, hq, by rw [beq_iff_eq] at hq2; rw [hq2, hpk]⟩)
        rw [List.find?_cons_of_neg _ (by simp [hpk])]
    · rw [if_neg hin]
      have := ih (m ++ [(p.1, (⟨0, p.2.getD 0, 0⟩ : Agg))]) k
      rw [show ((t.foldl (fun acc p =>
          if acc.any (fun q => q.1 == p.1) then acc
          else acc ++ [(p.1, (⟨0, p.2.getD 0, 0⟩ : Agg))])
            (m ++ [(p.1, (⟨0, p.2.getD 0, 0⟩ : Agg))]))) =
          reconcile (m ++ [(p.1, (⟨0, p.2.getD 0, 0⟩ : Agg))]) t from rfl, this,
        lookupA_append]
      cases h : lookupA m k with
      | some v => simp
      | none =>
        by_cases hpk : p.1 = k
        · rw [lookupA_cons, if_pos hpk, List.find?_cons_of_pos _ (by simp [hpk])]
          rfl
        · rw [lookupA_cons, if_neg hpk, List.find?_cons_of_neg _ (by simp [hpk])]
          rfl

/-- C2: `clean_amount` stringifies, keeps only digits/`.`/`-`, then parses;
it is a total function into `Option Rat` (so it never raises), it is
invariant under pre-filtering with its own character class (all other
characters are discarded), and it meets all the pinned examples, with the
numeric input `-5` taken in its stringified form `"-5"`. -/
theorem c2_clean_amount_spec :
    (∀ s : String, clean_amount (some s) = clean_amount (some ⟨s.data.filter keepCh⟩))
    ∧ clean_amount (some "$1,500") = some 1500
    ∧ clean_amount (some "1752$+LUMPE") = some 1752
    ∧ clean_amount (some "") = none
    ∧ clean_amount (some "abc") = none
    ∧ clean_amount (some "-5") = some (-5)
    ∧ clean_amount none = none := by
  refine ⟨?_, by decide, by decide, by decide, by decide, by decide, rfl⟩
  intro s
  show (if (⟨s.data.filter keepCh⟩ : String) = "" then none
          else pyFloatOfString ⟨s.data.filter keepCh⟩) =
       (if (⟨(⟨s.data.filter keepCh⟩ : String).data.filter keepCh⟩ : String) = "" then none
          else pyFloatOfString ⟨(⟨s.data.filter keepCh⟩ : String).data.filter keepCh⟩)
  have hdata : (⟨s.data.filter keepCh⟩ : String).data = s.data.filter keepCh := rfl
  rw [hdata, List.filter_filter]
  have : (fun a => keepCh a && keepCh a) = keepCh := by
    funext a; exact Bool.and_self (keepCh a)
  rw [this]

/-- C3: `detect_week_markers` is length-preserving in the original row
order; a table with no markers labels every row `"Before Week 1"`; the
label of an appended row is `"Week {digits}"` if the row is a marker row
(the marker row itself receives the new label) and otherwise the label
carried forward from the rows before it (initially `"Before Week 1"`);
and the pinned example holds. -/
theorem c3_detect_week_markers_spec :
    (∀ cells : List Cell, (detect_week_markers cells).length = cells.length)
    ∧ (∀ cells : List Cell, (∀ c ∈ cells, weekSearch c = none) →
        detect_week_markers cells = cells.map (fun _ => "Before Week 1"))
    ∧ (∀ (cells : List Cell) (c : Cell),
        detect_week_markers (cells ++ [c]) =
          detect_week_markers cells ++
            [match weekSearch c with
             | some d => "Week " ++ d
             | none => (detect_week_markers cells).getLastD "Before Week 1"])
    ∧ detect_week_markers [some "", some "Week 4 starts", some ""] =
        ["Before Week 1", "Week 4", "Week 4"] :=
  ⟨fun cells => detectAux_length _ cells,
   fun cells h => detectAux_all_none _ cells h,
   fun cells c => detectAux_append_single _ cells c,
   by decide⟩

/-- Witness for C3, discharging the no-marker hypothesis at a concrete
two-row table. -/
theorem c3_detect_week_markers_witness :
    detect_week_markers [some "acme logistics", none] =
      ["Before Week 1", "Before Week 1"] :=
  c3_detect_week_markers_spec.2.1 [some "acme logistics", none] (by decide)

/-- C10: with two or more amount columns, `clean_dataframe` retains a row
only if every listed amount column sanitizes to a strictly positive
number (the `> 0` filter runs per amount column); concretely, rows whose
first amount column is positive but whose second is negative, missing,
or unparsable are dropped entirely. -/
theorem c10_positivity_filter_per_column :
    (∀ (n : Nat) (rows : List (RawRow × String)) (p : CleanRow × String),
        p ∈ clean_dataframe n rows →
        ∀ i, i < n → ∃ q : Rat, p.1.amounts.getD i none = some q ∧ 0 < q)
    ∧ clean_dataframe 2
        [(⟨some "Ali", [some "$500", some "-3"]⟩, "w"),
         (⟨some "Bob", [some "400", none]⟩, "w"),
         (⟨some "Cara", [some "250", some "oops"]⟩, "w")] = [] := by
  refine ⟨?_, by decide⟩
  intro n rows p hp i hi
  unfold clean_dataframe at hp
  rw [List.mem_filter] at hp
  rw [List.mem_filter] at hp
  obtain ⟨⟨hp5, _⟩, _⟩ := hp
  rw [List.mem_map] at hp5
  obtain ⟨y, hy4, hy5⟩ := hp5
  obtain ⟨_, hall⟩ := mem_foldl_filter _ (List.range n) _ y hy4
  have hpos : cellPos (y.1.amounts.getD i none) = true :=
    hall i (List.mem_range.mpr hi)
  have hamts : p.1.amounts = y.1.amounts := by
    rw [← hy5]
  rw [hamts]
  unfold cellPos at hpos
  cases hgd : y.1.amounts.getD i none with
  | none => rw [hgd] at hpos; exact absurd hpos (by simp)
  | some q =>
    rw [hgd] at hpos
    exact ⟨q, rfl, of_decide_eq_true hpos⟩

/-- Witness for C10, applying the retained-implies-all-positive direction
to a two-amount-column row that survives cleaning. -/
theorem c10_positivity_filter_witness :
    ∃ q : Rat,
      ((⟨⟨"Ali", [some 500, some 20]⟩, "w"⟩ : CleanRow × String).1.amounts.getD 1 none)
        = some q ∧ 0 < q :=
  c10_positivity_filter_per_column.1 2
    [(⟨some "Ali", [some "500", some "20"]⟩, "w")]
    ⟨⟨"Ali", [some 500, some 20]⟩, "w"⟩
    (by decide) 1 (by decide)

/-- C6: `_calculate_earnings` matches the entity against configuration
keys by lowercased equality and, for every calculation method, reports
the matching configuration key's spelling as `entity_name` when a match
exists and the raw data name otherwise; in particular data entity
`"ali"` with config key `"Ali"` yields `entity_name = "Ali"`. -/
theorem c6_config_casing_wins :
    (∀ (entity : String) (total : Rat) (method : CalculationMethod)
        (config : EntityConfig),
        (calculate_earnings entity total method config).entity_name =
          match cfgLookup entity config with
          | some p => p.1
          | none => entity)
    ∧ (calculate_earnings "ali" 100 .percentage [("Ali", some 10)]).entity_name
        = "Ali" := by
  refine ⟨?_, by decide⟩
  intro entity total method config
  cases method <;> cases h : cfgLookup entity config <;>
    simp [calculate_earnings, h]

/-- C7: under `FLAT_RATE` the earnings equal the matched configuration
entry's value (0 when no entry matches), independently of
`total_amount`, and the reported rate equals the earnings; concretely
`total_amount = 1000` with configured value 300 yields earnings 300. -/
theorem c7_flat_rate_volume_independent :
    (∀ (entity : String) (total : Rat) (config : EntityConfig),
        (calculate_earnings entity total .flat_rate config).earnings =
          match cfgLookup entity config with
          | some p => p.2.getD 0
          | none => 0)
    ∧ (∀ (entity : String) (t₁ t₂ : Rat) (config : EntityConfig),
        (calculate_earnings entity t₁ .flat_rate config).earnings =
        (calculate_earnings entity t₂ .flat_rate config).earnings)
    ∧ (∀ (entity : String) (total : Rat) (config : EntityConfig),
        (calculate_earnings entity total .flat_rate config).rate =
        (calculate_earnings entity total .flat_rate config).earnings)
    ∧ calculate_earnings "Bob" 1000 .flat_rate [("Bob", some 300)] =
        ⟨"Bob", 1000, 300, 300⟩ := by
  have hearn : ∀ (entity : String) (total : Rat) (config : EntityConfig),
      (calculate_earnings entity total .flat_rate config).earnings =
        match cfgLookup entity config with
        | some p => p.2.getD 0
        | none => 0 := by
    intro entity total config
    cases h : cfgLookup entity config <;> simp [calculate_earnings, h]
  refine ⟨hearn, ?_, ?_, by decide⟩
  · intro entity t₁ t₂ config
    rw [hearn, hearn]
  · intro entity total config
    cases h : cfgLookup entity config <;> simp [calculate_earnings, h]

/-- C4 (counterexample to the claim as stated): when two distinct
retained entity spellings (`"ali"`, `"Ali"`) case-match the same config
key, the overall dict entry is overwritten by the last group in pandas'
sorted iteration order, so the overall total (500) is not the sum of the
per-week totals (500 + 300 = 800). -/
theorem c4_sum_invariant_counterexample :
    lookupA (process_with_grouping
        [⟨"Before Week 1", "ali", 500⟩, ⟨"Week 2", "Ali", 300⟩]
        .percentage [("Ali", some 10)]).overall "Ali" = some ⟨500, 10, 50⟩
    ∧ ((process_with_grouping
        [⟨"Before Week 1", "ali", 500⟩, ⟨"Week 2", "Ali", 300⟩]
        .percentage [("Ali", some 10)]).weeks.map
        (fun p => match lookupA p.2 "Ali" with
                  | some b => b.total_amount
                  | none => 0)).sum = 800
    ∧ (500 : Rat) ≠ 800 := by
  refine ⟨by decide, by decide, by decide⟩

/-- C4 (amended): provided no two distinct retained entity spellings are
filed under the same result name (`matchedName` is injective on the
rows' entities — this is what the claim's universal statement misses),
every entity key in the overall results has a total equal to the sum of
that key's totals over all per-week results, with a missing per-week
entry contributing 0; amounts in exact arithmetic. -/
theorem c4_sum_invariant_amended (rows : List CRow)
    (method : CalculationMethod) (config : EntityConfig)
    (hinj : ∀ e₁ ∈ rows.map CRow.entity, ∀ e₂ ∈ rows.map CRow.entity,
        matchedName config e₁ = matchedName config e₂ → e₁ = e₂)
    (k : String) (a : Agg)
    (hk : lookupA (process_with_grouping rows method config).overall k = some a) :
    a.total_amount =
      ((process_with_grouping rows method config).weeks.map
        (fun p => match lookupA p.2 k with
                  | some b => b.total_amount
                  | none => 0)).sum := by
  have hov : (process_with_grouping rows method config).overall =
      reconcile (buildMap (groupE rows) method config) config := rfl
  have hweeks : (process_with_grouping rows method config).weeks =
      (weeksOf rows).map (fun w =>
        (w, reconcile (buildMap (weekGroups rows w) method config) config)) := rfl
  rw [hov, lookupA_reconcile] at hk
  rw [hweeks, List.map_map]
  cases hbo : lookupA (buildMap (groupE rows) method config) k with
  | some v =>
    rw [hbo] at hk
    have hva : v = a := Option.some.inj hk
    rw [lookupA_buildMap] at hbo
    cases hf : (groupE rows).reverse.find?
        (fun g => matchedName config g.1 == k) with
    | none => rw [hf] at hbo; cases hbo
    | some g =>
      rw [hf] at hbo
      have hvg : v = toAgg (calculate_earnings g.1 g.2 method config) :=
        (Option.some.inj hbo).symm
      have hgmem : g ∈ groupE rows :=
        List.mem_reverse.mp (List.mem_of_find?_eq_some hf)
      have hgk : matchedName config g.1 = k := by
        have := List.find?_some hf
        simpa using this
      obtain ⟨hgeq, hgent⟩ := groupE_mem_elim rows g hgmem
      have htot : a.total_amount = sumE rows g.1 := by
        rw [← hva, hvg,
          show (toAgg (calculate_earnings g.1 g.2 method config)).total_amount
            = (calculate_earnings g.1 g.2 method config).total_amount from rfl,
          calc_total_amount]
        conv_lhs => rw [hgeq]
      have hterm : ∀ w ∈ weeksOf rows,
          (match lookupA
              (reconcile (buildMap (weekGroups rows w) method config) config) k with
           | some b => b.total_amount
           | none => 0) = sumWE rows w g.1 := by
        intro w _
        rw [lookupA_reconcile, lookupA_buildMap]
        by_cases hwk : (w, g.1) ∈ rows.map (fun r => (r.week, r.entity))
        · have hmem : (g.1, sumWE rows w g.1) ∈ (weekGroups rows w).reverse :=
            List.mem_reverse.mpr (weekGroups_mem_intro rows w g.1 hwk)
          have hpred :
              (matchedName config (g.1, sumWE rows w g.1).1 == k) = true := by
            simp [hgk]
          have huniq : ∀ y ∈ (weekGroups rows w).reverse,
              (matchedName config y.1 == k) = true →
              y = (g.1, sumWE rows w g.1) := by
            intro y hy hyk
            have hy' := weekGroups_mem_elim rows w y (List.mem_reverse.mp hy)
            have hyent : y.1 ∈ rows.map CRow.entity := by
              obtain ⟨r, hr, hre⟩ := List.mem_map.mp hy'.2
              exact List.mem_map.mpr
                ⟨r, hr, congrArg Prod.snd hre⟩
            have hye : y.1 = g.1 :=
              hinj y.1 hyent g.1 hgent
                (by rw [beq_iff_eq] at hyk; rw [hyk, hgk])
            rw [hy'.1, hye]
          rw [find?_eq_of_unique _ _ _ hmem hpred huniq]
          exact calc_total_amount g.1 (sumWE rows w g.1) method config
        · have hnone : (weekGroups rows w).reverse.find?
              (fun g' => matchedName config g'.1 == k) = none := by
            rw [List.find?_eq_none]
            intro y hy hyk
            have hy' := weekGroups_mem_elim rows w y (List.mem_reverse.mp hy)
            have hyent : y.1 ∈ rows.map CRow.entity := by
              obtain ⟨r, hr, hre⟩ := List.mem_map.mp hy'.2
              exact List.mem_map.mpr ⟨r, hr, congrArg Prod.snd hre⟩
            have hye : y.1 = g.1 :=
              hinj y.1 hyent g.1 hgent
                (by rw [beq_iff_eq] at hyk; rw [hyk, hgk])
            exact hwk (hye ▸ hy'.2)
          rw [hnone]
          have hz : sumWE rows w g.1 = 0 := sumWE_eq_zero rows w g.1 (by
            intro r hr hcon
            exact hwk (List.mem_map.mpr ⟨r, hr, by rw [hcon.1, hcon.2]⟩))
          cases hcf : config.find? (fun p => p.1 == k) with
          | some p => rw [hz]; rfl
          | none => rw [hz]; rfl
      rw [htot, ← sum_weeks_eq_sumE rows g.1 (weeksOf rows) (weeksOf_nodup rows)
        (fun r hr => week_mem_weeksOf rows r hr)]
      congr 1
      apply List.map_congr_left
      intro w hw
      exact (hterm w hw).symm
  | none =>
    rw [hbo] at hk
    cases hcf : config.find? (fun p => p.1 == k) with
    | none => rw [hcf] at hk; cases hk
    | some p =>
      rw [hcf] at hk
      have ha : a = ⟨0, p.2.getD 0, 0⟩ := (Option.some.inj hk).symm
      have hterm : ∀ w ∈ weeksOf rows,
          (match lookupA
              (reconcile (buildMap (weekGroups rows w) method config) config) k with
           | some b => b.total_amount
           | none => 0) = 0 := by
        intro w _
        rw [lookupA_reconcile, lookupA_buildMap]
        have hnone : (weekGroups rows w).reverse.find?
            (fun g' => matchedName config g'.1 == k) = none := by
          rw [List.find?_eq_none]
          intro y hy hyk
          have hy' := weekGroups_mem_elim rows w y (List.mem_reverse.mp hy)
          have hyent : y.1 ∈ rows.map CRow.entity := by
            obtain ⟨r, hr, hre⟩ := List.mem_map.mp hy'.2
            exact List.mem_map.mpr ⟨r, hr, congrArg Prod.snd hre⟩
          have hsome : lookupA (buildMap (groupE rows) method config) k ≠ none := by
            rw [lookupA_buildMap]
            have hmem : (y.1, sumE rows y.1) ∈ (groupE rows).reverse :=
              List.mem_reverse.mpr (groupE_mem_intro rows y.1 hyent)
            cases hfo : (groupE rows).reverse.find?
                (fun g => matchedName config g.1 == k) with
            | some g' => simp
            | none =>
              rw [List.find?_eq_none] at hfo
              exact absurd hyk (by simpa using hfo _ hmem)
          exact hsome hbo
        rw [hnone, hcf]
        rfl
      rw [ha]
      show (0 : Rat) = _
      symm
      apply List.sum_eq_zero
      intro x hx
      obtain ⟨w, hw, hxw⟩ := List.mem_map.mp hx
      rw [← hxw]
      exact hterm w hw

/-- C5: reconciliation is a full outer join, in every aggregation scope.
First half: whenever a configured entity `k` (with config entry `p`) has
no case-insensitively matching aggregate row in a scope — a week of the
grouped results, the grouped overall scope, or the ungrouped overall
scope — that scope's results contain `k` with `total_amount = 0` and
`earnings = 0` (and the configured rate).  Second half: a data entity
`e` with no case-insensitively matching configuration entry appears in
each scope it has rows in, keyed by its raw name, with rate 0 and (under
the percentage method) earnings 0 — the calculation defaults the rate to
0 rather than failing. -/
theorem c5_reconciliation_full_outer_join :
    (∀ (rows : List CRow) (method : CalculationMethod)
        (config : EntityConfig) (k : String) (p : String × Option Rat),
        config.find? (fun q => q.1 == k) = some p →
        (∀ wp ∈ (process_with_grouping rows method config).weeks,
          (∀ r ∈ rows, r.week = wp.1 → lowerStr r.entity ≠ lowerStr k) →
          lookupA wp.2 k = some ⟨0, p.2.getD 0, 0⟩)
        ∧ ((∀ r ∈ rows, lowerStr r.entity ≠ lowerStr k) →
          lookupA (process_with_grouping rows method config).overall k =
            some ⟨0, p.2.getD 0, 0⟩)
        ∧ ((∀ r ∈ rows, lowerStr r.entity ≠ lowerStr k) →
          lookupA (process_without_grouping rows method config) k =
            some ⟨0, p.2.getD 0, 0⟩))
    ∧ (∀ (rows : List CRow) (config : EntityConfig) (e : String),
        (∀ q ∈ config, lowerStr q.1 ≠ lowerStr e) →
        (∀ w, (w, e) ∈ rows.map (fun r => (r.week, r.entity)) →
          ∀ wp ∈ (process_with_grouping rows .percentage config).weeks,
            wp.1 = w →
            lookupA wp.2 e = some ⟨sumWE rows w e, 0, 0⟩)
        ∧ (e ∈ rows.map CRow.entity →
          lookupA (process_with_grouping rows .percentage config).overall e =
            some ⟨sumE rows e, 0, 0⟩)
        ∧ (e ∈ rows.map CRow.entity →
          lookupA (process_without_grouping rows .percentage config) e =
            some ⟨sumE rows e, 0, 0⟩)) := by
  have hfill : ∀ (gs : List (String × Rat)) (method : CalculationMethod)
      (config : EntityConfig) (k : String) (p : String × Option Rat),
      config.find? (fun q => q.1 == k) = some p →
      (∀ g ∈ gs, lowerStr g.1 ≠ lowerStr k) →
      lookupA (reconcile (buildMap gs method config) config) k =
        some ⟨0, p.2.getD 0, 0⟩ := by
    intro gs method config k p hp hg
    rw [lookupA_reconcile, lookupA_buildMap]
    have hnone : gs.reverse.find?
        (fun g => matchedName config g.1 == k) = none := by
      rw [List.find?_eq_none]
      intro y hy hyk
      rw [beq_iff_eq] at hyk
      exact matchedName_ne_of_lower_ne config y.1 k
        (hg y (List.mem_reverse.mp hy)) hyk
    rw [hnone, hp]
    rfl
  have hunm : ∀ (rows : List CRow) (config : EntityConfig) (e : String),
      (∀ q ∈ config, lowerStr q.1 ≠ lowerStr e) →
      e ∈ rows.map CRow.entity →
      lookupA (reconcile (buildMap (groupE rows) .percentage config) config) e =
        some ⟨sumE rows e, 0, 0⟩ := by
    intro rows config e hcfg he
    rw [lookupA_reconcile, lookupA_buildMap]
    have hnc : cfgLookup e config = none := cfgLookup_eq_none e config hcfg
    have hmem : (e, sumE rows e) ∈ (groupE rows).reverse :=
      List.mem_reverse.mpr (groupE_mem_intro rows e he)
    have hpred : (matchedName config (e, sumE rows e).1 == e) = true := by
      simp [matchedName, hnc]
    have huniq : ∀ y ∈ (groupE rows).reverse,
        (matchedName config y.1 == e) = true → y = (e, sumE rows e) := by
      intro y hy hyk
      rw [beq_iff_eq] at hyk
      have hye : y.1 = e := matchedName_eq_unconfigured config e y.1 hcfg hyk
      have hy' := groupE_mem_elim rows y (List.mem_reverse.mp hy)
      rw [hy'.1, hye]
    rw [find?_eq_of_unique _ _ _ hmem hpred huniq]
    show some (toAgg (calculate_earnings e (sumE rows e)
      CalculationMethod.percentage config)) = _
    rw [calc_unmatched_percentage e (sumE rows e) config hnc]
    rfl
  constructor
  · intro rows method config k p hp
    refine ⟨?_, ?_, ?_⟩
    · intro wp hwp hno
      obtain ⟨w, hw, rfl⟩ := List.mem_map.mp hwp
      apply hfill (weekGroups rows w) method config k p hp
      intro g hg
      obtain ⟨_, hpair⟩ := weekGroups_mem_elim rows w g hg
      obtain ⟨r, hr, hre⟩ := List.mem_map.mp hpair
      have hrw : r.week = w := congrArg Prod.fst hre
      have hrent : r.entity = g.1 := congrArg Prod.snd hre
      rw [← hrent]
      exact hno r hr hrw
    · intro hno
      apply hfill (groupE rows) method config k p hp
      intro g hg
      obtain ⟨r, hr, hre⟩ := List.mem_map.mp (groupE_mem_elim rows g hg).2
      rw [← hre]
      exact hno r hr
    · intro hno
      apply hfill (groupE rows) method config k p hp
      intro g hg
      obtain ⟨r, hr, hre⟩ := List.mem_map.mp (groupE_mem_elim rows g hg).2
      rw [← hre]
      exact hno r hr
  · intro rows config e hcfg
    refine ⟨?_, ?_, ?_⟩
    · intro w hwk wp hwp hwp1
      obtain ⟨w', hw', rfl⟩ := List.mem_map.mp hwp
      have hww : w = w' := hwp1.symm
      subst hww
      show lookupA (reconcile (buildMap (weekGroups rows w) .percentage config)
          config) e = some ⟨sumWE rows w e, 0, 0⟩
      rw [lookupA_reconcile, lookupA_buildMap]
      have hnc : cfgLookup e config = none := cfgLookup_eq_none e config hcfg
      have hmem : (e, sumWE rows w e) ∈ (weekGroups rows w).reverse :=
        List.mem_reverse.mpr (weekGroups_mem_intro rows w e hwk)
      have hpred : (matchedName config (e, sumWE rows w e).1 == e) = true := by
        simp [matchedName, hnc]
      have huniq : ∀ y ∈ (weekGroups rows w).reverse,
          (matchedName config y.1 == e) = true → y = (e, sumWE rows w e) := by
        intro y hy hyk
        rw [beq_iff_eq] at hyk
        have hye : y.1 = e := matchedName_eq_unconfigured config e y.1 hcfg hyk
        have hy' := weekGroups_mem_elim rows w y (List.mem_reverse.mp hy)
        rw [hy'.1, hye]
      rw [find?_eq_of_unique _ _ _ hmem hpred huniq]
      show some (toAgg (calculate_earnings e (sumWE rows w e)
        CalculationMethod.percentage config)) = _
      rw [calc_unmatched_percentage e (sumWE rows w e) config hnc]
      rfl
    · exact fun he => hunm rows config e hcfg he
    · exact fun he => hunm rows config e hcfg he

/-- Witness for C5 at a one-row table: configured `"Ali"` with no data
is zero-filled; unconfigured data entity `"Bob"` appears with rate 0 and
earnings 0. -/
theorem c5_reconciliation_witness :
    lookupA (process_with_grouping [⟨"Before Week 1", "Bob", 100⟩]
        .percentage [("Ali", some 10)]).overall "Ali" = some ⟨0, 10, 0⟩
    ∧ lookupA (process_with_grouping [⟨"Before Week 1", "Bob", 100⟩]
        .percentage [("Ali", some 10)]).overall "Bob" =
        some ⟨sumE [⟨"Before Week 1", "Bob", 100⟩] "Bob", 0, 0⟩ :=
  ⟨(c5_reconciliation_full_outer_join.1 [⟨"Before Week 1", "Bob", 100⟩]
      .percentage [("Ali", some 10)] "Ali" ("Ali", some 10)
      (by decide)).2.1 (by decide),
   (c5_reconciliation_full_outer_join.2 [⟨"Before Week 1", "Bob", 100⟩]
      [("Ali", some 10)] "Bob" (by decide)).2.1 (by decide)⟩

/-- Witness for the amended C4 at a concrete two-week table. -/
theorem c4_sum_invariant_witness :
    (⟨800, 10, 80⟩ : Agg).total_amount =
      ((process_with_grouping
          [⟨"Before Week 1", "Ali", 500⟩, ⟨"Week 2", "Ali", 300⟩]
          .percentage [("Ali", some 10)]).weeks.map
        (fun p => match lookupA p.2 "Ali" with
                  | some b => b.total_amount
                  | none => 0)).sum :=
  c4_sum_invariant_amended
    [⟨"Before Week 1", "Ali", 500⟩, ⟨"Week 2", "Ali", 300⟩]
    .percentage [("Ali", some 10)] (by decide) "Ali" ⟨800, 10, 80⟩ (by decide)

/-- C1: the spec's end-to-end scenario.  On the 4-row table with columns
Broker/Dispatch/Amount under the dispatcher category (percentage method,
week grouping) and config `{"Ali": 10%}`, processing yields period
`"Before Week 1"` with Ali total 500 / earnings 50, period `"Week 2"`
with Ali total 300 / earnings 30, overall Ali total 800 / earnings 80;
the negative-amount row (Sara) and the empty-Dispatch row appear in no
period's results and not in the overall results. -/
theorem c1_end_to_end_scenario :
    (process_category
        ⟨["Broker", "Dispatch", "Amount"],
         [[some "", some "Ali", some "$500"],
          [some "Week 2", some "", some ""],
          [some "", some "Ali", some "300"],
          [some "", some "Sara", some "$-10"]]⟩
        ⟨"Dispatch", ["Amount"], ["Week"], .percentage⟩
        [("Ali", some 10)]).1 =
      some (.grouped
        { weeks :=
            [("Before Week 1", [("Ali", ⟨500, 10, 50⟩)]),
             ("Week 2", [("Ali", ⟨300, 10, 30⟩)])]
          overall := [("Ali", ⟨800, 10, 80⟩)] })
    ∧ lookupA [("Ali", (⟨500, 10, 50⟩ : Agg))] "Sara" = none
    ∧ lookupA [("Ali", (⟨300, 10, 30⟩ : Agg))] "Sara" = none
    ∧ lookupA [("Ali", (⟨500, 10, 50⟩ : Agg))] "" = none
    ∧ lookupA [("Ali", (⟨300, 10, 30⟩ : Agg))] "" = none
    ∧ lookupA [("Ali", (⟨800, 10, 80⟩ : Agg))] "Sara" = none
    ∧ lookupA [("Ali", (⟨800, 10, 80⟩ : Agg))] "" = none := by
  refine ⟨by decide, by decide, by decide, by decide, by decide, by decide,
    by decide⟩

/-- C9 (counterexample to the claim as stated): a column name with
surrounding whitespace is renamed in place in the caller's table
(`df.columns = df.columns.str.strip()` mutates the caller's object), a
mutation that is not the addition of the derived period column — and the
`'Week'` column is never added to the caller's table at all (it is
written to an internal copy). -/
theorem c9_frame_counterexample :
    (process_category
        ⟨["Broker", " Dispatch ", "Amount"], [[some "", some "Ali", some "5"]]⟩
        ⟨"Dispatch", ["Amount"], ["Week"], .percentage⟩ []).2.cols =
      ["Broker", "Dispatch", "Amount"]
    ∧ ["Broker", "Dispatch", "Amount"] ≠ ["Broker", " Dispatch ", "Amount"]
    ∧ ["Broker", "Dispatch", "Amount"] ≠
        ["Broker", " Dispatch ", "Amount", "Week"]
    ∧ "Week" ∉ (process_category
        ⟨["Broker", " Dispatch ", "Amount"], [[some "", some "Ali", some "5"]]⟩
        ⟨"Dispatch", ["Amount"], ["Week"], .percentage⟩ []).2.cols := by
  refine ⟨by decide, by decide, by decide, by decide⟩

/-- C9 (amended): the only in-place change `process_category` makes to
the caller's table is stripping whitespace from the column names; the
rows and cell values are untouched, and when every column name is
already trimmed the caller's table is completely unchanged (the derived
`'Week'` column goes to an internal copy only). -/
theorem c9_frame_amended (t : Table) (cat : Category) (config : EntityConfig) :
    (process_category t cat config).2.rows = t.rows
    ∧ (process_category t cat config).2.cols = t.cols.map trimStr
    ∧ (t.cols.map trimStr = t.cols → (process_category t cat config).2 = t) := by
  refine ⟨rfl, rfl, ?_⟩
  intro h
  show (⟨t.cols.map trimStr, t.rows⟩ : Table) = t
  rw [h]

/-- Witness for the amended C9 on a table with trimmed column names. -/
theorem c9_frame_witness :
    (process_category ⟨["Broker", "Dispatch"], [[some "x", some "Ali"]]⟩
        ⟨"Dispatch", ["Amount"], [], .percentage⟩ []).2 =
      ⟨["Broker", "Dispatch"], [[some "x", some "Ali"]]⟩ :=
  (c9_frame_amended ⟨["Broker", "Dispatch"], [[some "x", some "Ali"]]⟩
    ⟨"Dispatch", ["Amount"], [], .percentage⟩ []).2.2 (by decide)

/-- C8 (counterexample to the claim as stated): a NaN-valued percentage
entry — reachable through the normal flow, since `parse_config_from_text`
stores `float('nan')` for the user line `"Ali: nan"` and `json.load`
accepts `NaN` in a persisted store — passes `validate_config`, because
`nan < 0` and `nan > 100` are both False under IEEE comparison; so
`validate_and_save` returns true and persists a value that is not a
number in `[0, 100]`.  The final conjunct shows the string form
`"nan"` reaches the same float. -/
theorem c8_validate_and_save_counterexample :
    (validate_and_save [] "dispatcher_earnings"
        [("Ali", .dict [("type", .str "percentage"),
                        ("value", .nanNum)])]).1 = true
    ∧ (validate_and_save [] "dispatcher_earnings"
        [("Ali", .dict [("type", .str "percentage"),
                        ("value", .nanNum)])]).2 =
      [("dispatcher_earnings",
        [("Ali", .dict [("type", .str "percentage"), ("value", .nanNum)])])]
    ∧ pyFloatVal CfgVal.nanNum = some PyFloat.nan
    ∧ PyFloat.nan ≠ PyFloat.num 0
    ∧ pfLt PyFloat.nan (PyFloat.num 0) = false
    ∧ pfLt (PyFloat.num 100) PyFloat.nan = false
    ∧ pyFloatStrF "nan" = some PyFloat.nan := by
  refine ⟨by decide, by decide, by decide, by decide, by decide, by decide,
    by decide⟩

/-- C8 (amended): `validate_and_save` is validated as a unit and atomic.
It returns true exactly when the submitted dispatcher configuration is
nonempty and every entry is a dict with `'type'` equal to `'percentage'`
and a `'value'` that `float()` accepts and whose result is neither
`< 0` nor `> 100` under Python's IEEE comparison — a condition that
finite values in `[0, 100]` satisfy but that NaN also slips through, so
"a numeric value in `[0, 100]`" overclaims; when it returns false (any
invalid entry, or an empty mapping) the stored configuration is left
completely unchanged (no partial save); when it returns true the
submitted configuration is stored under the category id and no other
category's configuration changes. -/
theorem c8_validate_and_save_atomic (store : Store) (categoryId : String)
    (config : List (String × SettingVal)) :
    ((validate_and_save store categoryId config).1 = true ↔
      config ≠ [] ∧ ∀ p ∈ config, ∃ fields,
        p.2 = SettingVal.dict fields ∧
        fieldGet fields "type" = some (.str "percentage") ∧
        ∃ v f, fieldGet fields "value" = some v ∧ pyFloatVal v = some f ∧
          pfLt f (PyFloat.num 0) = false ∧ pfLt (PyFloat.num 100) f = false)
    ∧ ((validate_and_save store categoryId config).1 = false →
        (validate_and_save store categoryId config).2 = store)
    ∧ ((validate_and_save store categoryId config).1 = true →
        lookupA (validate_and_save store categoryId config).2 categoryId =
          some config ∧
        ∀ k, k ≠ categoryId →
          lookupA (validate_and_save store categoryId config).2 k =
            lookupA store k) := by
  have hiff : validate_config config = true ↔
      (config ≠ [] ∧ ∀ p ∈ config, ∃ fields,
        p.2 = SettingVal.dict fields ∧
        fieldGet fields "type" = some (.str "percentage") ∧
        ∃ v f, fieldGet fields "value" = some v ∧ pyFloatVal v = some f ∧
          pfLt f (PyFloat.num 0) = false ∧
          pfLt (PyFloat.num 100) f = false) := by
    unfold validate_config
    by_cases hemp : config.isEmpty
    · rw [if_pos hemp]
      have hnil : config = [] := List.isEmpty_iff.mp hemp
      simp [hnil]
    · rw [if_neg hemp, List.all_eq_true]
      have hne : config ≠ [] := fun hc => hemp (by rw [hc]; rfl)
      simp only [hne, ne_eq, not_false_iff, true_and]
      exact ⟨fun h p hp => (entryOkB_iff p.2).mp (h p hp),
        fun h p hp => (entryOkB_iff p.2).mpr (h p hp)⟩
  have hts : validate_and_save store categoryId config =
      if validate_config config = true then
        (true, setKey store categoryId config)
      else (false, store) := rfl
  by_cases hval : validate_config config = true
  · rw [hts, if_pos hval]
    refine ⟨?_, ?_, ?_⟩
    · exact ⟨fun _ => hiff.mp hval, fun _ => rfl⟩
    · intro h; exact Bool.noConfusion h
    · intro _
      refine ⟨?_, ?_⟩
      · show lookupA (setKey store categoryId config) categoryId = some config
        rw [lookupA_setKey, if_pos rfl]
      · intro k hk
        show lookupA (setKey store categoryId config) k = lookupA store k
        rw [lookupA_setKey, if_neg (fun h => hk h.symm)]
  · rw [hts, if_neg hval]
    refine ⟨?_, ?_, ?_⟩
    · exact ⟨fun h => Bool.noConfusion h, fun h => absurd (hiff.mpr h) hval⟩
    · intro _; rfl
    · intro h; exact Bool.noConfusion h

/-- Witness for C8: an out-of-range percentage (150) is rejected and the
store (here empty) is left unchanged. -/
theorem c8_validate_and_save_witness :
    (validate_and_save [] "dispatcher_earnings"
        [("Ali", .dict [("type", .str "percentage"), ("value", .num 150)])]).2
      = [] :=
  (c8_validate_and_save_atomic [] "dispatcher_earnings"
    [("Ali", .dict [("type", .str "percentage"), ("value", .num 150)])]).2.1
    (by decide)

end AliBot
